import Mathlib

/-!
# Verification of a minimal proof-of-work blockchain

Shallow embedding of `src/blockchain/blockchain.py`: the `Block` class with
its SHA-256 `calculate_hash`, and the `Blockchain` class with `proof_of_work`
mining, `add_block`, `is_chain_valid` and `tamper_with_block`.

Machine integers are modelled as `Nat` with explicit `% 2 ^ 32` where 32-bit
overflow matters (SHA-256 word arithmetic).  The Python `while True` mining
loop is modelled with explicit fuel returning `Option`.  The block timestamp
(a Python float produced by `time.time()`) enters the hash only through its
`str(...)` rendering, so it is modelled by that textual rendering, a `String`
field.
-/

namespace MiniBlockchain

/-! ## SHA-256 (the `hashlib.sha256(...).hexdigest()` used by the code)

A complete executable SHA-256 over byte lists, FIPS 180-4.  Words are `Nat`
reduced mod `2 ^ 32`.
-/

/-- Right-rotation of a 32-bit word (input assumed `< 2 ^ 32`). -/
def rotr (k n : Nat) : Nat :=
  ((n >>> k) ||| (n <<< (32 - k))) % 4294967296

/-- Bitwise complement in 32 bits. -/
def bitnot32 (n : Nat) : Nat :=
  Nat.xor n 4294967295

/-- SHA-256 `Ch` function. -/
def sChoose (x y z : Nat) : Nat :=
  Nat.xor (Nat.land x y) (Nat.land (bitnot32 x) z)

/-- SHA-256 `Maj` function. -/
def sMajority (x y z : Nat) : Nat :=
  Nat.xor (Nat.xor (Nat.land x y) (Nat.land x z)) (Nat.land y z)

/-- SHA-256 big Σ₀. -/
def bigSigma0 (x : Nat) : Nat :=
  Nat.xor (Nat.xor (rotr 2 x) (rotr 13 x)) (rotr 22 x)

/-- SHA-256 big Σ₁. -/
def bigSigma1 (x : Nat) : Nat :=
  Nat.xor (Nat.xor (rotr 6 x) (rotr 11 x)) (rotr 25 x)

/-- SHA-256 small σ₀. -/
def smallSigma0 (x : Nat) : Nat :=
  Nat.xor (Nat.xor (rotr 7 x) (rotr 18 x)) (x >>> 3)

/-- SHA-256 small σ₁. -/
def smallSigma1 (x : Nat) : Nat :=
  Nat.xor (Nat.xor (rotr 17 x) (rotr 19 x)) (x >>> 10)

/-- The 64 SHA-256 round constants. -/
def roundK : List Nat :=
  [1116352408, 1899447441, 3049323471, 3921009573, 961987163, 1508970993,
   2453635748, 2870763221, 3624381080, 310598401, 607225278, 1426881987,
   1925078388, 2162078206, 2614888103, 3248222580, 3835390401, 4022224774,
   264347078, 604807628, 770255983, 1249150122, 1555081692, 1996064986,
   2554220882, 2821834349, 2952996808, 3210313671, 3336571891, 3584528711,
   113926993, 338241895, 666307205, 773529912, 1294757372, 1396182291,
   1695183700, 1986661051, 2177026350, 2456956037, 2730485921, 2820302411,
   3259730800, 3345764771, 3516065817, 3600352804, 4094571909, 275423344,
   430227734, 506948616, 659060556, 883997877, 958139571, 1322822218,
   1537002063, 1747873779, 1955562222, 2024104815, 2227730452, 2361852424,
   2428436474, 2756734187, 3204031479, 3329325298]

/-- The initial SHA-256 hash value. -/
def initH : List Nat :=
  [1779033703, 3144134277, 1013904242, 2773480762, 1359893119, 2600822924,
   528734635, 1541459225]

/-- Big-endian byte rendering of a natural number on `k` bytes. -/
def toBytesBE : Nat → Nat → List Nat
  | 0, _ => []
  | k + 1, n => toBytesBE k (n / 256) ++ [n % 256]

/-- SHA-256 padding: append `0x80`, zero bytes, and the 64-bit big-endian
bit length, reaching a multiple of 64 bytes. -/
def padMessage (msg : List Nat) : List Nat :=
  let zeros := (64 - (msg.length + 9) % 64) % 64
  msg ++ [128] ++ List.replicate zeros 0 ++ toBytesBE 8 (msg.length * 8)

/-- Group bytes four at a time into big-endian 32-bit words. -/
def bytesToWords : List Nat → List Nat
  | b0 :: b1 :: b2 :: b3 :: rest =>
      (((b0 * 256 + b1) * 256 + b2) * 256 + b3) :: bytesToWords rest
  | _ => []

/-- Extend a reversed 16-word schedule by `k` further words (message schedule
recurrence); the accumulator holds the words most-recent first. -/
def extendSchedule : Nat → List Nat → List Nat
  | 0, w => w
  | k + 1, w =>
      let nxt := (smallSigma1 (w.getD 1 0) + w.getD 6 0 +
                  smallSigma0 (w.getD 14 0) + w.getD 15 0) % 4294967296
      extendSchedule k (nxt :: w)

/-- The 64-word message schedule of one 16-word chunk. -/
def schedule (chunk : List Nat) : List Nat :=
  (extendSchedule 48 chunk.reverse).reverse

/-- One SHA-256 round: state is the 8-word working list `[a,b,c,d,e,f,g,h]`,
`kw` pairs the round constant with the schedule word. -/
def compressRound (st : List Nat) (kw : Nat × Nat) : List Nat :=
  match st with
  | [a, b, c, d, e, f, g, h] =>
      let t1 := (h + bigSigma1 e + sChoose e f g + kw.1 + kw.2) % 4294967296
      let t2 := (bigSigma0 a + sMajority a b c) % 4294967296
      [(t1 + t2) % 4294967296, a, b, c, (d + t1) % 4294967296, e, f, g]
  | other => other

/-- Process one 64-byte chunk: run the 64 rounds and add the result to the
incoming hash value, word-wise mod `2 ^ 32`. -/
def processChunk (h : List Nat) (chunk : List Nat) : List Nat :=
  let w := schedule (bytesToWords chunk)
  let final := (roundK.zip w).foldl compressRound h
  List.zipWith (fun x y => (x + y) % 4294967296) h final

/-- Split the padded byte list into 64-byte chunks (fuel-driven). -/
def chunkify : Nat → List Nat → List (List Nat)
  | 0, _ => []
  | _, [] => []
  | k + 1, l => l.take 64 :: chunkify k (l.drop 64)

/-- SHA-256 digest of a byte list as eight 32-bit words. -/
def sha256Words (msg : List Nat) : List Nat :=
  let padded := padMessage msg
  (chunkify padded.length padded).foldl processChunk initH

/-- Lowercase hexadecimal digit for `n < 16`. -/
def hexChar (n : Nat) : Char :=
  if n < 10 then Char.ofNat (48 + n) else Char.ofNat (87 + n)

/-- The eight lowercase hex characters of one 32-bit word, big-endian. -/
def wordToHex (w : Nat) : List Char :=
  [hexChar (w / 268435456 % 16), hexChar (w / 16777216 % 16),
   hexChar (w / 1048576 % 16), hexChar (w / 65536 % 16),
   hexChar (w / 4096 % 16), hexChar (w / 256 % 16),
   hexChar (w / 16 % 16), hexChar (w % 16)]

/-- UTF-8 bytes of one Unicode code point (what Python `str.encode()` does
per character). -/
def encodeCharUtf8 (n : Nat) : List Nat :=
  if n < 128 then [n]
  else if n < 2048 then [192 + n / 64, 128 + n % 64]
  else if n < 65536 then [224 + n / 4096, 128 + n / 64 % 64, 128 + n % 64]
  else [240 + n / 262144, 128 + n / 4096 % 64, 128 + n / 64 % 64, 128 + n % 64]

/-- UTF-8 byte list of a string (Python `s.encode()`). -/
def strToBytes (s : String) : List Nat :=
  (s.data.map (fun c => encodeCharUtf8 c.toNat)).flatten

/-- Model of `hashlib.sha256(s.encode()).hexdigest()`: the lowercase-hex
SHA-256 digest of a string. -/
def sha256hex (s : String) : String :=
  String.mk ((sha256Words (strToBytes s)).map wordToHex).flatten

/-! ## The `Block` class -/

/-- One ledger entry, mirroring the `Block` class.  `timestamp` is the Python
float's `str(...)` rendering, the only form in which it enters the code. -/
structure Block where
  index : Nat
  timestamp : String
  data : String
  previous_hash : String
  nonce : Nat
  hash : String
deriving Repr, DecidableEq

/-- A throwaway block used as the default of total list lookups. -/
def dummyBlock : Block :=
  { index := 0, timestamp := "", data := "", previous_hash := "",
    nonce := 0, hash := "" }

/-- Model of `Block.calculate_hash`: SHA-256 of the concatenation
`str(index) + str(timestamp) + str(data) + str(previous_hash) + str(nonce)`. -/
def Block.calculate_hash (b : Block) : String :=
  sha256hex (toString b.index ++ b.timestamp ++ b.data ++
             b.previous_hash ++ toString b.nonce)

/-- Model of `Block.__init__`: fields as given, `nonce = 0`, then
`hash = calculate_hash()`. -/
def Block.new (index : Nat) (timestamp data previous_hash : String) : Block :=
  let b : Block :=
    { index := index, timestamp := timestamp, data := data,
      previous_hash := previous_hash, nonce := 0, hash := "" }
  { b with hash := b.calculate_hash }

/-! ## The `Blockchain` class -/

/-- Python `s.startswith(p)`: character-wise prefix test. -/
def startswith (s p : String) : Bool :=
  p.data.isPrefixOf s.data

/-- Python `"0" * difficulty`: the difficulty target; a non-positive
difficulty yields the empty string, exactly as `*` does on Python ints. -/
def zeroTarget (d : Int) : String :=
  String.mk (List.replicate d.toNat '0')

/-- The full ledger, mirroring the `Blockchain` class.  `difficulty` is a
Python int, so an `Int`. -/
structure Blockchain where
  difficulty : Int
  chain : List Block
deriving Repr, DecidableEq

/-- Model of `Blockchain.proof_of_work`: recompute `block.hash`; if it starts with
`"0" * difficulty` return the block, else bump `nonce` and retry.  The
unbounded `while True` is modelled with fuel; `none` means fuel ran out
before a hash met the target. -/
def proof_of_work (difficulty : Int) : Nat → Block → Option Block
  | 0, _ => none
  | fuel + 1, b =>
      let b1 := { b with hash := b.calculate_hash }
      if startswith b1.hash (zeroTarget difficulty) then some b1
      else proof_of_work difficulty fuel { b1 with nonce := b1.nonce + 1 }

/-- Model of `Blockchain.create_genesis_block`: build `Block(0, now, "Genesis Block",
"0")` and mine it. -/
def create_genesis_block (difficulty : Int) (ts : String) (fuel : Nat) :
    Option Block :=
  proof_of_work difficulty fuel (Block.new 0 ts "Genesis Block" "0")

/-- Model of `Blockchain.__init__`: store `difficulty`, then the chain is the
singleton list holding the mined genesis block. -/
def Blockchain.new (difficulty : Int) (ts : String) (fuel : Nat) :
    Option Blockchain :=
  (create_genesis_block difficulty ts fuel).map
    (fun g => { difficulty := difficulty, chain := [g] })

/-- Model of `Blockchain.get_last_block`: `self.chain[-1]`. -/
def Blockchain.get_last_block (bc : Blockchain) : Option Block :=
  bc.chain.getLast?

/-- Model of `Blockchain.add_block`: build `Block(len(chain), now, data, last.hash)`,
mine it, append it, return it with the grown chain. -/
def Blockchain.add_block (bc : Blockchain) (ts data : String) (fuel : Nat) :
    Option (Blockchain × Block) :=
  match bc.get_last_block with
  | none => none
  | some last =>
      match proof_of_work bc.difficulty fuel
          (Block.new bc.chain.length ts data last.hash) with
      | none => none
      | some mined => some ({ bc with chain := bc.chain ++ [mined] }, mined)

/-- The body of the `is_chain_valid` loop from pair `(i-1, i)` onwards:
previous-hash link, recomputed hash, difficulty target, in source order. -/
def validFrom (target : String) : List Block → Bool
  | p :: c :: rest =>
      if c.previous_hash != p.hash then false
      else if c.hash != c.calculate_hash then false
      else if ! startswith c.hash target then false
      else validFrom target (c :: rest)
  | _ => true

/-- Model of `Blockchain.is_chain_valid`: run the three checks for every `i` from 1
to `len(chain) - 1`, short-circuiting on the first failure. -/
def Blockchain.is_chain_valid (bc : Blockchain) : Bool :=
  validFrom (zeroTarget bc.difficulty) bc.chain

/-- Which of the three `is_chain_valid` checks fails (mirrors the three
diagnostic `print` branches of the source). -/
inductive CheckFailure where
  | prevHashMismatch
  | hashMismatch
  | difficultyFail
deriving Repr, DecidableEq

/-- The diagnostic content of the `is_chain_valid` loop: the index `i` of the
first failing block together with the first failing check there (`none` when
the loop finishes, i.e. the chain is valid).  Indices are absolute when the
whole chain is passed. -/
def chainCheckRel (target : String) : List Block → Option (Nat × CheckFailure)
  | p :: c :: rest =>
      if c.previous_hash != p.hash then some (1, CheckFailure.prevHashMismatch)
      else if c.hash != c.calculate_hash then some (1, CheckFailure.hashMismatch)
      else if ! startswith c.hash target then some (1, CheckFailure.difficultyFail)
      else (chainCheckRel target (c :: rest)).map (fun x => (x.1 + 1, x.2))
  | _ => none

/-- The first failing block index and check of `is_chain_valid`, `none` for a
valid chain. -/
def Blockchain.chainCheck (bc : Blockchain) : Option (Nat × CheckFailure) :=
  chainCheckRel (zeroTarget bc.difficulty) bc.chain

/-- Model of `Blockchain.tamper_with_block`: raise (returning the state untouched, as
the Python exception leaves it) when `index <= 0 or index >= len(chain)`;
otherwise overwrite `data` and refresh `hash` without re-mining. -/
def Blockchain.tamper_with_block (bc : Blockchain) (index : Int)
    (new_data : String) : Except String Unit × Blockchain :=
  if index ≤ 0 ∨ (bc.chain.length : Int) ≤ index then
    (Except.error "Impossible de modifier ce bloc (index hors limites ou genesis).", bc)
  else
    let i := index.toNat
    let b := bc.chain.getD i dummyBlock
    let b1 := { b with data := new_data }
    let b2 := { b1 with hash := b1.calculate_hash }
    (Except.ok (), { bc with chain := bc.chain.set i b2 })

/-- A chain built exactly as the demonstration driver does: the constructor
followed by one `add_block` per payload, each step with its own timestamp
and fuel. -/
def buildFrom (bc : Blockchain) : List (String × String × Nat) → Option Blockchain
  | [] => some bc
  | (ts, data, fuel) :: rest =>
      match bc.add_block ts data fuel with
      | none => none
      | some (bc1, _) => buildFrom bc1 rest

/-- Constructor plus `N` `add_block` calls. -/
def buildChain (difficulty : Int) (gts : String) (gfuel : Nat)
    (adds : List (String × String × Nat)) : Option Blockchain :=
  match Blockchain.new difficulty gts gfuel with
  | none => none
  | some bc => buildFrom bc adds

/-- Membership test for lowercase hexadecimal digits. -/
def isLowerHexDigit (c : Char) : Bool :=
  (48 ≤ c.toNat && c.toNat ≤ 57) || (97 ≤ c.toNat && c.toNat ≤ 102)

/-- The three per-block checks of the validation loop, in source order. -/
def pairOk (target : String) (p c : Block) : Bool :=
  (c.previous_hash == p.hash) && (c.hash == c.calculate_hash) &&
    startswith c.hash target

/-- The validation checks at position `i ≥ 1` of a chain, via total lookups. -/
def pairOkAt (target : String) (l : List Block) (i : Nat) : Bool :=
  pairOk target (l.getD (i - 1) dummyBlock) (l.getD i dummyBlock)

/-- What a reported failure means: the named check fails at `i` and every
check the loop runs before it at `i` passes. -/
def firstFailAt (t : String) (l : List Block) (i : Nat) :
    CheckFailure → Prop
  | CheckFailure.prevHashMismatch =>
      (l.getD i dummyBlock).previous_hash ≠ (l.getD (i - 1) dummyBlock).hash
  | CheckFailure.hashMismatch =>
      (l.getD i dummyBlock).previous_hash = (l.getD (i - 1) dummyBlock).hash ∧
      (l.getD i dummyBlock).hash ≠ (l.getD i dummyBlock).calculate_hash
  | CheckFailure.difficultyFail =>
      (l.getD i dummyBlock).previous_hash = (l.getD (i - 1) dummyBlock).hash ∧
      (l.getD i dummyBlock).hash = (l.getD i dummyBlock).calculate_hash ∧
      startswith (l.getD i dummyBlock).hash t = false

/-- The last-link checks that appending one block adds to the loop. -/
def linkOk (t : String) (lastb : Option Block) (b : Block) : Bool :=
  match lastb with
  | none => true
  | some last => pairOk t last b

/-- What tampering writes over block `i`: the new payload and the digest
refreshed from the updated fields, the nonce and links untouched, with no
re-mining. -/
def tamperedBlock (b : Block) (s : String) : Block :=
  { b with data := s, hash := Block.calculate_hash { b with data := s } }

/-! ## Concrete chains

Concrete mined chains used by the closed witnesses and counterexamples.
The hashes are genuine SHA-256 digests of the corresponding field
concatenations (checkable by `decide` against `sha256hex`).
-/

/-- A mined genesis block at difficulty 1. -/
def blkG1 : Block :=
  { index := 0, timestamp := "1000.5", data := "Genesis Block",
    previous_hash := "0", nonce := 30,
    hash := "0dbbe439ad4f806eb08fa77957de9b18692961499aa33d83f899baba0a400f28" }

/-- A mined block 1 at difficulty 1 on top of `blkG1`. -/
def blkA1 : Block :=
  { index := 1, timestamp := "1001.5", data := "A",
    previous_hash := "0dbbe439ad4f806eb08fa77957de9b18692961499aa33d83f899baba0a400f28",
    nonce := 8,
    hash := "0e5e7d84a5d0ab22aeabe010dc84256f6aeeae116ab2b7508699ce0ac339690c" }

/-- A mined block 2 at difficulty 1 on top of `blkA1`. -/
def blkB1 : Block :=
  { index := 2, timestamp := "1002.5", data := "B",
    previous_hash := "0e5e7d84a5d0ab22aeabe010dc84256f6aeeae116ab2b7508699ce0ac339690c",
    nonce := 0,
    hash := "0c71ae7fc1386eedca91e2bcfbbeaa99b2a2743b5073eeca21dc25a45d866ff1" }

/-- A concrete valid difficulty-1 chain of three blocks. -/
def cexChainD1 : Blockchain := ⟨1, [blkG1, blkA1, blkB1]⟩

/-- A mined genesis block at difficulty 0 (one attempt, nonce 0). -/
def blkG0 : Block :=
  { index := 0, timestamp := "7", data := "Genesis Block",
    previous_hash := "0", nonce := 0,
    hash := "7d4a87485ce91d55db2baf3d3f68dcd0adfe21626f259e1bb51b653caefb53dd" }

/-- A mined block 1 at difficulty 0 on top of `blkG0`. -/
def blkA0 : Block :=
  { index := 1, timestamp := "8", data := "A",
    previous_hash := "7d4a87485ce91d55db2baf3d3f68dcd0adfe21626f259e1bb51b653caefb53dd",
    nonce := 0,
    hash := "bff9e1005e35872fe055342461c1f17db7c3b99df871cd8f035eb03b5223b30e" }

/-- A mined block 2 at difficulty 0 on top of `blkA0`. -/
def blkB0 : Block :=
  { index := 2, timestamp := "9", data := "B",
    previous_hash := "bff9e1005e35872fe055342461c1f17db7c3b99df871cd8f035eb03b5223b30e",
    nonce := 0,
    hash := "434682c30484a83a98863cd597a620257dafaf8b9fd5f95abd88dab440a8b765" }

/-- A concrete valid difficulty-0 chain of three blocks, exactly what
`buildChain 0 "7" 1 [("8", "A", 1), ("9", "B", 1)]` produces. -/
def wChainD0 : Blockchain := ⟨0, [blkG0, blkA0, blkB0]⟩

/-! ## Helper lemmas -/

/-- The digest never reads the stored `hash` field. -/
theorem calculate_hash_hash_irrel (b : Block) (h : String) :
    Block.calculate_hash { b with hash := h } = b.calculate_hash := rfl

/-- The digest reads exactly the five hashed fields. -/
theorem calculate_hash_congr (b b' : Block)
    (h1 : b.index = b'.index) (h2 : b.timestamp = b'.timestamp)
    (h3 : b.data = b'.data) (h4 : b.previous_hash = b'.previous_hash)
    (h5 : b.nonce = b'.nonce) :
    b.calculate_hash = b'.calculate_hash := by
  unfold Block.calculate_hash
  rw [h1, h2, h3, h4, h5]

/-- Every string starts with the empty string. -/
theorem startswith_empty (s : String) : startswith s "" = true := by
  simp [startswith, List.isPrefixOf]

/-- A non-positive Python difficulty gives the empty target. -/
theorem zeroTarget_nonpos (d : Int) (hd : d ≤ 0) : zeroTarget d = "" := by
  unfold zeroTarget
  rw [Int.toNat_of_nonpos hd]
  rfl

/-- Soundness of the mining loop: when `proof_of_work` returns a block, its
hash meets the difficulty target, equals the digest recomputed from its final
fields, and every field other than `nonce` and `hash` is the input block's. -/
theorem proof_of_work_sound (d : Int) :
    ∀ (fuel : Nat) (b b1 : Block), proof_of_work d fuel b = some b1 →
      startswith b1.hash (zeroTarget d) = true ∧
      b1.hash = b1.calculate_hash ∧
      b1.index = b.index ∧ b1.timestamp = b.timestamp ∧
      b1.data = b.data ∧ b1.previous_hash = b.previous_hash := by
  intro fuel
  induction fuel with
  | zero => intro b b1 h; simp [proof_of_work] at h
  | succ n ih =>
      intro b b1 h
      rw [proof_of_work] at h
      by_cases hs : startswith (Block.calculate_hash b) (zeroTarget d) = true
      · simp only [hs, if_true] at h
        cases h
        refine ⟨hs, ?_, rfl, rfl, rfl, rfl⟩
        exact (calculate_hash_hash_irrel b b.calculate_hash).symm
      · simp only [hs, if_false, Bool.false_eq_true] at h
        obtain ⟨h1, h2, h3, h4, h5, h6⟩ := ih _ _ h
        exact ⟨h1, h2, h3, h4, h5, h6⟩

/-- Mining with the empty target (difficulty `≤ 0`) succeeds on the very
first attempt and leaves the nonce untouched. -/
theorem proof_of_work_empty_target (d : Int) (hd : d ≤ 0) (fuel : Nat)
    (hf : 1 ≤ fuel) (b : Block) :
    proof_of_work d fuel b = some { b with hash := b.calculate_hash } := by
  cases fuel with
  | zero => omega
  | succ n =>
      rw [proof_of_work, zeroTarget_nonpos d hd, startswith_empty, if_pos rfl]

/-- Unfolding of one validation step into the conjunction of its checks. -/
theorem validFrom_cons_cons (t : String) (p c : Block) (r : List Block) :
    validFrom t (p :: c :: r) = (pairOk t p c && validFrom t (c :: r)) := by
  rw [validFrom, pairOk]
  cases h1 : c.previous_hash == p.hash <;>
    cases h2 : c.hash == c.calculate_hash <;>
      cases h3 : startswith c.hash t <;>
        simp [h1, h2, h3, bne]

/-- Unfolding of one diagnostic step. -/
theorem chainCheckRel_cons_cons (t : String) (p c : Block) (r : List Block) :
    chainCheckRel t (p :: c :: r) =
      (if c.previous_hash ≠ p.hash then some (1, CheckFailure.prevHashMismatch)
       else if c.hash ≠ c.calculate_hash then some (1, CheckFailure.hashMismatch)
       else if startswith c.hash t = false then some (1, CheckFailure.difficultyFail)
       else (chainCheckRel t (c :: r)).map (fun x => (x.1 + 1, x.2))) := by
  rw [chainCheckRel]
  by_cases h1 : c.previous_hash = p.hash <;>
    by_cases h2 : c.hash = c.calculate_hash <;>
      cases h3 : startswith c.hash t <;>
        simp [h1, h2, h3, bne_iff_ne]

/-- The diagnostic pass reports nothing exactly when the boolean pass
succeeds. -/
theorem chainCheckRel_none_iff (t : String) :
    ∀ l : List Block, (chainCheckRel t l = none ↔ validFrom t l = true) := by
  intro l
  induction l with
  | nil => simp [chainCheckRel, validFrom]
  | cons p tail ih =>
      cases tail with
      | nil => simp [chainCheckRel, validFrom]
      | cons c r =>
          rw [chainCheckRel_cons_cons, validFrom_cons_cons]
          by_cases h1 : c.previous_hash = p.hash <;>
            by_cases h2 : c.hash = c.calculate_hash <;>
              cases h3 : startswith c.calculate_hash t <;>
                simp [h1, h2, h3, pairOk, ih, Option.map_eq_none]

/-- Index-wise reading of the validation loop: the boolean pass succeeds
exactly when every position from 1 on passes the three checks. -/
theorem validFrom_eq_true_iff (t : String) :
    ∀ l : List Block,
      (validFrom t l = true ↔
        ∀ i, 1 ≤ i → i < l.length → pairOkAt t l i = true) := by
  intro l
  induction l with
  | nil => simp [validFrom]
  | cons p tail ih =>
      cases tail with
      | nil => simp [validFrom]; omega
      | cons c r =>
          rw [validFrom_cons_cons]
          constructor
          · intro h i hi1 hi2
            rw [Bool.and_eq_true] at h
            cases i with
            | zero => omega
            | succ i1 =>
                cases i1 with
                | zero => simpa [pairOkAt, List.getD] using h.1
                | succ j =>
                    have hj := (ih.mp h.2) (j + 1) (by omega)
                      (by simp only [List.length_cons] at hi2 ⊢; omega)
                    simpa [pairOkAt, List.getD] using hj
          · intro h
            rw [Bool.and_eq_true]
            constructor
            · simpa [pairOkAt, List.getD] using
                h 1 (by omega) (by simp)
            · refine ih.mpr ?_
              intro j hj1 hj2
              cases j with
              | zero => omega
              | succ k =>
                  have hk := h (k + 2) (by omega)
                    (by simp only [List.length_cons] at hj2 ⊢; omega)
                  simpa [pairOkAt, List.getD] using hk

/-- Soundness of the diagnostic pass: a report names the smallest failing
index, and within it the first failing check. -/
theorem chainCheckRel_some_spec (t : String) :
    ∀ (l : List Block) (i : Nat) (k : CheckFailure),
      chainCheckRel t l = some (i, k) →
      1 ≤ i ∧ i < l.length ∧
      (∀ j, 1 ≤ j → j < i → pairOkAt t l j = true) ∧
      firstFailAt t l i k := by
  intro l
  induction l with
  | nil => intro i k h; simp [chainCheckRel] at h
  | cons p tail ih =>
      cases tail with
      | nil => intro i k h; simp [chainCheckRel] at h
      | cons c r =>
          intro i k h
          rw [chainCheckRel_cons_cons] at h
          by_cases h1 : c.previous_hash = p.hash
          · rw [if_neg (by simpa using h1)] at h
            by_cases h2 : c.hash = c.calculate_hash
            · rw [if_neg (by simpa using h2)] at h
              cases h3 : startswith c.hash t
              · rw [if_pos (by simpa using h3)] at h
                cases h
                refine ⟨by omega, by simp, ?_, h1, h2, by simpa [List.getD] using h3⟩
                intro j hj1 hj2; omega
              · rw [if_neg (by simp [h3])] at h
                cases hrec0 : chainCheckRel t (c :: r) with
                | none => rw [hrec0] at h; simp at h
                | some x =>
                obtain ⟨i0, k0⟩ := x
                rw [hrec0] at h
                rw [show Option.map (fun x => (x.1 + 1, x.2))
                      (some (i0, k0)) = some (i0 + 1, k0) from rfl] at h
                simp only [Option.some.injEq, Prod.mk.injEq] at h
                obtain ⟨hi, hk⟩ := h
                subst hi; subst hk
                obtain ⟨hb1, hb2, hmin, hfail⟩ := ih i0 k0 hrec0
                cases i0 with
                | zero => exact absurd hb1 (by omega)
                | succ i1 =>
                refine ⟨by omega, by simp only [List.length_cons] at hb2 ⊢; omega, ?_, ?_⟩
                · intro j hj1 hj2
                  cases j with
                  | zero => omega
                  | succ j1 =>
                      cases j1 with
                      | zero =>
                          have h3x : startswith c.calculate_hash t = true := h2 ▸ h3
                          simp [pairOkAt, pairOk, List.getD, h1, h2, h3x]
                      | succ j2 =>
                          have := hmin (j2 + 1) (by omega) (by omega)
                          simpa [pairOkAt, List.getD] using this
                · cases k0 with
                  | prevHashMismatch =>
                      simpa [firstFailAt, List.getD] using hfail
                  | hashMismatch =>
                      simpa [firstFailAt, List.getD] using hfail
                  | difficultyFail =>
                      simpa [firstFailAt, List.getD] using hfail
            · rw [if_pos (by simpa using h2)] at h
              cases h
              refine ⟨by omega, by simp, ?_, ?_⟩
              · intro j hj1 hj2; omega
              · exact ⟨by simpa [List.getD] using h1, by simpa [List.getD] using h2⟩
          · rw [if_pos (by simpa using h1)] at h
            cases h
            refine ⟨by omega, by simp, ?_, by simpa [List.getD] using h1⟩
            intro j hj1 hj2; omega

/-- Appending a block to a chain validates the old chain and then the new
last link. -/
theorem validFrom_append (t : String) :
    ∀ (l : List Block) (b : Block),
      validFrom t (l ++ [b]) = (validFrom t l && linkOk t l.getLast? b) := by
  intro l
  induction l with
  | nil => intro b; simp [validFrom, linkOk]
  | cons p tail ih =>
      cases tail with
      | nil =>
          intro b
          simp only [List.cons_append, List.nil_append]
          rw [validFrom_cons_cons]
          simp [validFrom, linkOk]
      | cons c r =>
          intro b
          have ih2 := ih b
          rw [List.cons_append] at ih2
          simp only [List.cons_append]
          rw [validFrom_cons_cons, ih2, validFrom_cons_cons,
              List.getLast?_cons_cons, Bool.and_assoc]

/-- Soundness of `add_block`: it appends exactly the mined block, whose
index is the pre-append length, whose payload and timestamp are the inputs,
whose previous-hash link is the old last block's hash, and whose hash is
mined and self-consistent. -/
theorem add_block_sound (bc : Blockchain) (ts data : String) (fuel : Nat)
    (bc1 : Blockchain) (blk : Block)
    (h : bc.add_block ts data fuel = some (bc1, blk)) :
    bc1.difficulty = bc.difficulty ∧
    bc1.chain = bc.chain ++ [blk] ∧
    blk.index = bc.chain.length ∧
    blk.timestamp = ts ∧ blk.data = data ∧
    (∀ last, bc.chain.getLast? = some last → blk.previous_hash = last.hash) ∧
    startswith blk.hash (zeroTarget bc.difficulty) = true ∧
    blk.hash = blk.calculate_hash := by
  rw [Blockchain.add_block] at h
  cases hlast : bc.get_last_block with
  | none => rw [hlast] at h; simp at h
  | some last =>
      rw [hlast] at h
      simp only at h
      cases hpow : proof_of_work bc.difficulty fuel
          (Block.new bc.chain.length ts data last.hash) with
      | none => rw [hpow] at h; simp at h
      | some mined =>
          rw [hpow] at h
          simp only [Option.some.injEq, Prod.mk.injEq] at h
          obtain ⟨hbc1, hblk⟩ := h
          subst hbc1; subst hblk
          obtain ⟨hs, hh, hidx, hts, hdata, hprev⟩ :=
            proof_of_work_sound bc.difficulty fuel _ mined hpow
          refine ⟨rfl, rfl, by simpa [Block.new] using hidx,
            by simpa [Block.new] using hts,
            by simpa [Block.new] using hdata, ?_, hs, hh⟩
          intro l hl
          rw [Blockchain.get_last_block] at hlast
          rw [hlast] at hl
          cases hl
          simpa [Block.new] using hprev

/-- Soundness of the constructor: on success the chain is exactly one mined
genesis block carrying the requested difficulty. -/
theorem blockchain_new_sound (d : Int) (ts : String) (fuel : Nat)
    (bc : Blockchain) (h : Blockchain.new d ts fuel = some bc) :
    bc.difficulty = d ∧
    (∃ g, bc.chain = [g] ∧
      g.index = 0 ∧ g.timestamp = ts ∧ g.data = "Genesis Block" ∧
      g.previous_hash = "0" ∧
      startswith g.hash (zeroTarget d) = true ∧
      g.hash = g.calculate_hash) ∧
    bc.is_chain_valid = true := by
  rw [Blockchain.new] at h
  cases hg : create_genesis_block d ts fuel with
  | none => rw [hg] at h; simp at h
  | some g =>
      rw [hg] at h
      simp only [Option.map_some', Option.some.injEq] at h
      subst h
      rw [create_genesis_block] at hg
      obtain ⟨hs, hh, hidx, hts, hdata, hprev⟩ :=
        proof_of_work_sound d fuel _ g hg
      refine ⟨rfl, ⟨g, rfl, by simpa [Block.new] using hidx,
        by simpa [Block.new] using hts, by simpa [Block.new] using hdata,
        by simpa [Block.new] using hprev, hs, hh⟩, ?_⟩
      simp [Blockchain.is_chain_valid, validFrom]

/-- Validity is preserved along any run of `add_block` calls from a nonempty
valid chain. -/
theorem buildFrom_sound :
    ∀ (adds : List (String × String × Nat)) (bc bc1 : Blockchain),
      buildFrom bc adds = some bc1 →
      bc.chain ≠ [] → bc.is_chain_valid = true →
      bc1.difficulty = bc.difficulty ∧ bc1.chain ≠ [] ∧
      bc1.is_chain_valid = true := by
  intro adds
  induction adds with
  | nil =>
      intro bc bc1 h hne hv
      rw [buildFrom] at h
      cases h
      exact ⟨rfl, hne, hv⟩
  | cons step rest ih =>
      intro bc bc1 h hne hv
      obtain ⟨ts, data, fuel⟩ := step
      rw [buildFrom] at h
      cases hadd : bc.add_block ts data fuel with
      | none => rw [hadd] at h; simp at h
      | some res =>
          obtain ⟨bc2, blk⟩ := res
          rw [hadd] at h
          simp only at h
          obtain ⟨hdiff, hchain, _, _, _, hprev, hs, hh⟩ :=
            add_block_sound bc ts data fuel bc2 blk hadd
          have hlast : ∃ last, bc.chain.getLast? = some last := by
            cases hc : bc.chain with
            | nil => exact absurd hc hne
            | cons x xs => exact ⟨(x :: xs).getLast (by simp), List.getLast?_eq_getLast _ _⟩
          obtain ⟨last, hlast⟩ := hlast
          have hv2 : bc2.is_chain_valid = true := by
            rw [Blockchain.is_chain_valid, hdiff, hchain, validFrom_append, hlast]
            rw [Blockchain.is_chain_valid] at hv
            simp only [linkOk, pairOk]
            rw [hv]
            have hsx : startswith blk.calculate_hash (zeroTarget bc.difficulty) = true :=
              hh ▸ hs
            simp [hprev last hlast, hh, hsx]
          have hne2 : bc2.chain ≠ [] := by
            rw [hchain]; simp
          obtain ⟨hd3, hne3, hv3⟩ := ih bc2 bc1 h hne2 hv2
          exact ⟨by rw [hd3, hdiff], hne3, hv3⟩

/-- One compression round never changes the state length. -/
theorem compressRound_length (st : List Nat) (kw : Nat × Nat) :
    (compressRound st kw).length = st.length := by
  rcases st with _ | ⟨a, _ | ⟨b, _ | ⟨c, _ | ⟨d, _ | ⟨e, _ |
    ⟨f, _ | ⟨g, _ | ⟨h, _ | ⟨i, t⟩⟩⟩⟩⟩⟩⟩⟩⟩ <;> rfl

/-- Folding compression rounds never changes the state length. -/
theorem foldl_compressRound_length :
    ∀ (l : List (Nat × Nat)) (st : List Nat),
      (l.foldl compressRound st).length = st.length := by
  intro l
  induction l with
  | nil => intro st; rfl
  | cons kw rest ih =>
      intro st
      rw [List.foldl_cons, ih, compressRound_length]

/-- Processing a chunk preserves the eight-word state shape. -/
theorem processChunk_length (h chunk : List Nat) (hh : h.length = 8) :
    (processChunk h chunk).length = 8 := by
  rw [processChunk]
  simp only [List.length_zipWith, foldl_compressRound_length, hh]
  omega

/-- Folding chunk processing preserves the eight-word state shape. -/
theorem foldl_processChunk_length :
    ∀ (cs : List (List Nat)) (h : List Nat), h.length = 8 →
      (cs.foldl processChunk h).length = 8 := by
  intro cs
  induction cs with
  | nil => intro h hh; simpa using hh
  | cons c rest ih =>
      intro h hh
      rw [List.foldl_cons]
      exact ih _ (processChunk_length h c hh)

/-- A SHA-256 digest always consists of eight words. -/
theorem sha256Words_length (msg : List Nat) : (sha256Words msg).length = 8 := by
  rw [sha256Words]
  exact foldl_processChunk_length _ _ rfl

/-- Flattening eight-character word renderings of `n` words yields `8 * n`
characters. -/
theorem flatten_wordToHex_length :
    ∀ ws : List Nat, ((ws.map wordToHex).flatten).length = 8 * ws.length := by
  intro ws
  induction ws with
  | nil => rfl
  | cons w rest ih =>
      simp only [List.map_cons, List.flatten_cons, List.length_append, ih,
        List.length_cons]
      rw [show (wordToHex w).length = 8 from rfl]
      omega

/-- The hex digest of any string has exactly 64 characters. -/
theorem sha256hex_length (s : String) : (sha256hex s).length = 64 := by
  rw [sha256hex]
  show ((sha256Words (strToBytes s)).map wordToHex).flatten.length = 64
  rw [flatten_wordToHex_length, sha256Words_length]

/-- Characters produced by `hexChar` on a residue mod 16 are lowercase hex
digits. -/
theorem hexChar_mod_isLowerHexDigit (n : Nat) :
    isLowerHexDigit (hexChar (n % 16)) = true := by
  have h : n % 16 < 16 := Nat.mod_lt _ (by omega)
  interval_cases h : n % 16 <;> decide

/-- Every character of the hex digest is a lowercase hex digit. -/
theorem sha256hex_chars (s : String) :
    ∀ c ∈ (sha256hex s).data, isLowerHexDigit c = true := by
  intro c hc
  rw [sha256hex] at hc
  simp only [String.data] at hc
  rw [List.mem_flatten] at hc
  obtain ⟨chunk, hchunk, hcc⟩ := hc
  rw [List.mem_map] at hchunk
  obtain ⟨w, _, hw⟩ := hchunk
  subst hw
  rw [wordToHex] at hcc
  simp only [List.mem_cons, List.not_mem_nil, or_false] at hcc
  rcases hcc with h | h | h | h | h | h | h | h <;>
    (subst h; exact hexChar_mod_isLowerHexDigit _)

/-- Unfolding of an in-range tamper: the result is `ok` and the chain has
block `i` overwritten with the new payload and its refreshed (unmined)
digest. -/
theorem tamper_in_range (bc : Blockchain) (i : Int) (s : String)
    (h1 : 1 ≤ i) (h2 : i < (bc.chain.length : Int)) :
    bc.tamper_with_block i s =
      (Except.ok (), Blockchain.mk bc.difficulty
        (bc.chain.set i.toNat (tamperedBlock (bc.chain.getD i.toNat dummyBlock) s))) := by
  rw [Blockchain.tamper_with_block, if_neg (by omega)]
  simp [tamperedBlock]

/-- Tampering block 1 of a chain of length at least 2, explicitly. -/
theorem tamper_one (d : Int) (b0 b1 : Block) (rest : List Block) (s : String) :
    Blockchain.tamper_with_block ⟨d, b0 :: b1 :: rest⟩ 1 s =
      (Except.ok (), ⟨d, b0 :: tamperedBlock b1 s :: rest⟩) := by
  rw [tamper_in_range _ _ _ (by omega)
      (by simp only [List.length_cons]; omega)]
  simp [List.getD]

/-- Core of tamper detection: tampering block 1 of a valid chain of length
at least 3 with a payload whose refreshed digest differs from the old one
always invalidates the chain; the reported failure is the difficulty check
at block 1 when the refreshed digest misses the target, and otherwise the
previous-hash mismatch at block 2. -/
theorem tamper_detect (d : Int) (b0 b1 b2 : Block) (rest : List Block)
    (x : String)
    (hv : Blockchain.is_chain_valid ⟨d, b0 :: b1 :: b2 :: rest⟩ = true)
    (hne : (tamperedBlock b1 x).hash ≠ b1.hash) :
    Blockchain.is_chain_valid ⟨d, b0 :: tamperedBlock b1 x :: b2 :: rest⟩ = false ∧
    (if startswith (tamperedBlock b1 x).hash (zeroTarget d) = true
     then Blockchain.chainCheck ⟨d, b0 :: tamperedBlock b1 x :: b2 :: rest⟩ =
            some (2, CheckFailure.prevHashMismatch)
     else Blockchain.chainCheck ⟨d, b0 :: tamperedBlock b1 x :: b2 :: rest⟩ =
            some (1, CheckFailure.difficultyFail)) := by
  rw [Blockchain.is_chain_valid] at hv
  simp only at hv
  rw [validFrom_cons_cons, validFrom_cons_cons, Bool.and_eq_true,
      Bool.and_eq_true] at hv
  obtain ⟨hpair1, hpair2, _⟩ := hv
  rw [pairOk, Bool.and_eq_true, Bool.and_eq_true] at hpair1 hpair2
  have hp1 : b1.previous_hash = b0.hash := by
    have := hpair1.1.1; rwa [beq_iff_eq] at this
  have hp2 : b2.previous_hash = b1.hash := by
    have := hpair2.1.1; rwa [beq_iff_eq] at this
  have hprev1 : (tamperedBlock b1 x).previous_hash = b0.hash := by
    rw [tamperedBlock]; exact hp1
  have hhash1 : (tamperedBlock b1 x).hash = (tamperedBlock b1 x).calculate_hash := rfl
  have hprev2 : b2.previous_hash ≠ (tamperedBlock b1 x).hash := by
    rw [hp2]; exact fun h => hne h.symm
  have hbeq1 : ((tamperedBlock b1 x).previous_hash == b0.hash) = true := by
    rw [beq_iff_eq]; exact hprev1
  have hbeq2 : ((tamperedBlock b1 x).hash == (tamperedBlock b1 x).calculate_hash) = true := by
    rw [beq_iff_eq]; exact hhash1
  cases hs : startswith (tamperedBlock b1 x).hash (zeroTarget d) with
  | false =>
      refine ⟨?_, ?_⟩
      · rw [Blockchain.is_chain_valid]
        simp only
        rw [validFrom_cons_cons]
        rw [show pairOk (zeroTarget d) b0 (tamperedBlock b1 x) = false by
              rw [pairOk, hs]; simp]
        rfl
      · rw [if_neg (by simp [hs])]
        rw [Blockchain.chainCheck]
        simp only
        rw [chainCheckRel_cons_cons]
        rw [if_neg (not_not_intro hprev1), if_neg (not_not_intro hhash1)]
        rw [if_pos hs]
  | true =>
      have hpair1x : pairOk (zeroTarget d) b0 (tamperedBlock b1 x) = true := by
        rw [pairOk, hbeq1, hbeq2, hs]; rfl
      have hpair2x : pairOk (zeroTarget d) (tamperedBlock b1 x) b2 = false := by
        rw [pairOk]
        rw [show (b2.previous_hash == (tamperedBlock b1 x).hash) = false by
              simpa using hprev2]
        rfl
      refine ⟨?_, ?_⟩
      · rw [Blockchain.is_chain_valid]
        simp only
        rw [validFrom_cons_cons, validFrom_cons_cons, hpair1x, hpair2x]
        rfl
      · rw [if_pos rfl]
        rw [Blockchain.chainCheck]
        simp only
        rw [chainCheckRel_cons_cons]
        rw [if_neg (not_not_intro hprev1), if_neg (not_not_intro hhash1)]
        rw [if_neg (by simp [hs])]
        rw [chainCheckRel_cons_cons]
        rw [if_pos hprev2]
        rfl

/-- The three checks of a position, written as propositions. -/
theorem pairOkAt_iff (t : String) (l : List Block) (i : Nat) :
    pairOkAt t l i = true ↔
      ((l.getD i dummyBlock).previous_hash = (l.getD (i - 1) dummyBlock).hash ∧
       (l.getD i dummyBlock).hash = (l.getD i dummyBlock).calculate_hash ∧
       startswith (l.getD i dummyBlock).hash t = true) := by
  rw [pairOkAt, pairOk]
  simp [Bool.and_eq_true, and_assoc]

/-- Validation reads nothing of the head block except its hash. -/
theorem validFrom_head_hash (t : String) (g g' : Block) (rest : List Block)
    (h : g'.hash = g.hash) :
    validFrom t (g' :: rest) = validFrom t (g :: rest) := by
  cases rest with
  | nil => rfl
  | cons c r =>
      rw [validFrom_cons_cons, validFrom_cons_cons, pairOk, pairOk, h]

/-- The boolean verdict agrees with the diagnostic pass being silent. -/
theorem is_chain_valid_eq_isNone (bc : Blockchain) :
    bc.is_chain_valid = bc.chainCheck.isNone := by
  rw [Blockchain.is_chain_valid, Blockchain.chainCheck]
  cases hcc : chainCheckRel (zeroTarget bc.difficulty) bc.chain with
  | none =>
      rw [(chainCheckRel_none_iff _ _).mp hcc]
      rfl
  | some x =>
      simp only [Option.isNone_some]
      cases hv : validFrom (zeroTarget bc.difficulty) bc.chain with
      | false => rfl
      | true =>
          rw [(chainCheckRel_none_iff _ _).mpr hv] at hcc
          cases hcc

/-! ## Claims -/

/-- C1: for every difficulty `d` and block `b`, when `proof_of_work`
returns, the returned block is `b` itself with only `nonce` and `hash`
updated (index, timestamp, data and previous hash are unchanged), its hash
starts with `d` zero hex characters, and its hash equals `calculate_hash`
recomputed on the returned block's final fields. -/
theorem claimC1_pow_postcondition (d : Int) (fuel : Nat) (b b1 : Block)
    (h : proof_of_work d fuel b = some b1) :
    startswith b1.hash (zeroTarget d) = true ∧
    b1.hash = b1.calculate_hash ∧
    b1.index = b.index ∧ b1.timestamp = b.timestamp ∧
    b1.data = b.data ∧ b1.previous_hash = b.previous_hash :=
  proof_of_work_sound d fuel b b1 h

set_option maxRecDepth 10000 in
/-- Witness for C1 at a concrete block mined at difficulty 0. -/
theorem claimC1_witness :
    startswith ({ dummyBlock with hash := dummyBlock.calculate_hash } : Block).hash
        (zeroTarget 0) = true ∧
    ({ dummyBlock with hash := dummyBlock.calculate_hash } : Block).hash =
      ({ dummyBlock with hash := dummyBlock.calculate_hash } : Block).calculate_hash ∧
    ({ dummyBlock with hash := dummyBlock.calculate_hash } : Block).index = dummyBlock.index ∧
    ({ dummyBlock with hash := dummyBlock.calculate_hash } : Block).timestamp = dummyBlock.timestamp ∧
    ({ dummyBlock with hash := dummyBlock.calculate_hash } : Block).data = dummyBlock.data ∧
    ({ dummyBlock with hash := dummyBlock.calculate_hash } : Block).previous_hash = dummyBlock.previous_hash :=
  claimC1_pow_postcondition 0 1 dummyBlock
    { dummyBlock with hash := dummyBlock.calculate_hash } (by decide)

/-- C2: `calculate_hash` is the SHA-256 lowercase hex digest (64 characters,
all lowercase hex digits) of the concatenation of the string renderings of
`(index, timestamp, data, previous_hash, nonce)` in that order with no
separators; it is deterministic in those five fields, and it reads nothing
else of the block (in particular not the stored `hash`; in this pure
embedding it can mutate nothing). -/
theorem claimC2_calculate_hash (b : Block) :
    b.calculate_hash =
      sha256hex (toString b.index ++ b.timestamp ++ b.data ++
                 b.previous_hash ++ toString b.nonce) ∧
    b.calculate_hash.length = 64 ∧
    (∀ c ∈ b.calculate_hash.data, isLowerHexDigit c = true) ∧
    (∀ b' : Block, b.index = b'.index → b.timestamp = b'.timestamp →
      b.data = b'.data → b.previous_hash = b'.previous_hash →
      b.nonce = b'.nonce → b.calculate_hash = b'.calculate_hash) ∧
    (∀ s : String, Block.calculate_hash { b with hash := s } = b.calculate_hash) := by
  refine ⟨rfl, ?_, ?_, ?_, ?_⟩
  · rw [Block.calculate_hash]; exact sha256hex_length _
  · rw [Block.calculate_hash]; exact sha256hex_chars _
  · intro b' h1 h2 h3 h4 h5; exact calculate_hash_congr b b' h1 h2 h3 h4 h5
  · intro s; exact calculate_hash_hash_irrel b s

/-- Witness for C2: two concrete blocks agreeing on the five hashed fields
but not on the stored hash get the same digest. -/
theorem claimC2_witness :
    dummyBlock.calculate_hash =
      Block.calculate_hash { dummyBlock with hash := "zz" } :=
  (claimC2_calculate_hash dummyBlock).2.2.2.1
    { dummyBlock with hash := "zz" } rfl rfl rfl rfl rfl

/-- C8: with difficulty 0 mining returns on the first loop iteration for
every block (fuel 1 already suffices), the first computed hash matching the
empty target, and the returned nonce is the input block's nonce, which is 0
for every freshly constructed block. -/
theorem claimC8_difficulty_zero (b : Block) (fuel : Nat) (hf : 1 ≤ fuel) :
    proof_of_work 0 fuel b = some { b with hash := b.calculate_hash } ∧
    (proof_of_work 0 1 b).isSome = true ∧
    (∀ (i : Nat) (ts dat ph : String), (Block.new i ts dat ph).nonce = 0) := by
  refine ⟨proof_of_work_empty_target 0 (by omega) fuel hf b, ?_, fun i ts dat ph => rfl⟩
  rw [proof_of_work_empty_target 0 (by omega) 1 (by omega)]
  rfl

/-- Witness for C8 at a concrete block with fuel 1. -/
theorem claimC8_witness :
    proof_of_work 0 1 dummyBlock =
      some { dummyBlock with hash := dummyBlock.calculate_hash } ∧
    (proof_of_work 0 1 dummyBlock).isSome = true ∧
    (∀ (i : Nat) (ts dat ph : String), (Block.new i ts dat ph).nonce = 0) :=
  claimC8_difficulty_zero dummyBlock 1 (by omega)

/-- C10: a chain whose block list has length 1 validates unconditionally,
whatever the genesis block's fields hold: the loop starts at index 1 and
inspects nothing. -/
theorem claimC10_singleton_valid (bc : Blockchain)
    (h : bc.chain.length = 1) : bc.is_chain_valid = true := by
  obtain ⟨d, chain⟩ := bc
  cases chain with
  | nil => simp at h
  | cons b t =>
      cases t with
      | nil => rfl
      | cons c r => simp at h

/-- Witness for C10: a single-block chain with garbage fields and a wrong
difficulty still validates. -/
theorem claimC10_witness :
    Blockchain.is_chain_valid ⟨5, [dummyBlock]⟩ = true :=
  claimC10_singleton_valid ⟨5, [dummyBlock]⟩ rfl

/-- C3: every chain produced by the constructor followed by any number of
`add_block` calls (any payloads, any timestamps, whenever the fuelled mining
succeeds) validates; moreover each successful `add_block` appends exactly
one block whose index is the pre-append length and whose previous hash is
the old last block's hash, returning the mined block; and in every such
chain each block's previous hash equals its predecessor's hash. -/
theorem claimC3_fresh_chain_valid (d : Int) (gts : String) (gfuel : Nat)
    (adds : List (String × String × Nat)) (bc : Blockchain)
    (h : buildChain d gts gfuel adds = some bc) :
    bc.is_chain_valid = true ∧
    (∀ i, 1 ≤ i → i < bc.chain.length →
      (bc.chain.getD i dummyBlock).previous_hash =
        (bc.chain.getD (i - 1) dummyBlock).hash) ∧
    (∀ (bc0 : Blockchain) (ts dat : String) (fuel : Nat)
        (bc1 : Blockchain) (blk : Block),
      bc0.add_block ts dat fuel = some (bc1, blk) →
      bc1.chain = bc0.chain ++ [blk] ∧ blk.index = bc0.chain.length ∧
      (∀ last, bc0.get_last_block = some last →
        blk.previous_hash = last.hash)) := by
  have hvalid : bc.is_chain_valid = true := by
    rw [buildChain] at h
    cases hnew : Blockchain.new d gts gfuel with
    | none => rw [hnew] at h; cases h
    | some bc0 =>
        rw [hnew] at h
        simp only at h
        obtain ⟨_, ⟨g, hg, _⟩, hv0⟩ := blockchain_new_sound d gts gfuel bc0 hnew
        obtain ⟨_, _, hv⟩ := buildFrom_sound adds bc0 bc h (by rw [hg]; simp) hv0
        exact hv
  refine ⟨hvalid, ?_, ?_⟩
  · intro i hi1 hi2
    rw [Blockchain.is_chain_valid] at hvalid
    have := (validFrom_eq_true_iff _ _).mp hvalid i hi1 hi2
    exact ((pairOkAt_iff _ _ _).mp this).1
  · intro bc0 ts dat fuel bc1 blk hadd
    obtain ⟨_, hchain, hidx, _, _, hprev, _, _⟩ :=
      add_block_sound bc0 ts dat fuel bc1 blk hadd
    exact ⟨hchain, hidx, fun last hl => hprev last hl⟩

set_option maxRecDepth 10000 in
/-- Witness for C3: the concrete difficulty-0 build of genesis plus two
payloads validates. -/
theorem claimC3_witness : wChainD0.is_chain_valid = true :=
  (claimC3_fresh_chain_valid 0 "7" 1 [("8", "A", 1), ("9", "B", 1)]
    wChainD0 (by decide)).1

/-- C4: the boolean validation verdict is `true` exactly when every
position from 1 on passes the three checks (previous-hash link, recomputed
hash, difficulty target); the verdict agrees with the diagnostic pass being
silent; a reported failure names the smallest failing index and the first
failing check there (total functions: no exception exists in this
embedding); and nothing of the genesis block other than its hash is ever
inspected. -/
theorem claimC4_validation_characterisation (bc : Blockchain) :
    (bc.is_chain_valid = true ↔
      ∀ i, 1 ≤ i → i < bc.chain.length →
        ((bc.chain.getD i dummyBlock).previous_hash =
           (bc.chain.getD (i - 1) dummyBlock).hash ∧
         (bc.chain.getD i dummyBlock).hash =
           (bc.chain.getD i dummyBlock).calculate_hash ∧
         startswith (bc.chain.getD i dummyBlock).hash
           (zeroTarget bc.difficulty) = true)) ∧
    (bc.is_chain_valid = bc.chainCheck.isNone) ∧
    (∀ (i : Nat) (k : CheckFailure), bc.chainCheck = some (i, k) →
      1 ≤ i ∧ i < bc.chain.length ∧
      (∀ j, 1 ≤ j → j < i →
        ((bc.chain.getD j dummyBlock).previous_hash =
           (bc.chain.getD (j - 1) dummyBlock).hash ∧
         (bc.chain.getD j dummyBlock).hash =
           (bc.chain.getD j dummyBlock).calculate_hash ∧
         startswith (bc.chain.getD j dummyBlock).hash
           (zeroTarget bc.difficulty) = true)) ∧
      firstFailAt (zeroTarget bc.difficulty) bc.chain i k) ∧
    (∀ (g g' : Block) (rest : List Block), g'.hash = g.hash →
      Blockchain.is_chain_valid ⟨bc.difficulty, g' :: rest⟩ =
        Blockchain.is_chain_valid ⟨bc.difficulty, g :: rest⟩) := by
  refine ⟨?_, is_chain_valid_eq_isNone bc, ?_, ?_⟩
  · rw [Blockchain.is_chain_valid]
    rw [validFrom_eq_true_iff]
    constructor
    · intro h i hi1 hi2
      exact (pairOkAt_iff _ _ _).mp (h i hi1 hi2)
    · intro h i hi1 hi2
      exact (pairOkAt_iff _ _ _).mpr (h i hi1 hi2)
  · intro i k hck
    rw [Blockchain.chainCheck] at hck
    obtain ⟨h1, h2, hmin, hfail⟩ := chainCheckRel_some_spec _ _ i k hck
    refine ⟨h1, h2, ?_, hfail⟩
    intro j hj1 hj2
    exact (pairOkAt_iff _ _ _).mp (hmin j hj1 hj2)
  · intro g g' rest h
    rw [Blockchain.is_chain_valid, Blockchain.is_chain_valid]
    simp only
    exact validFrom_head_hash _ g g' rest h

set_option maxRecDepth 10000 in
/-- Witness for C4: extracting the three checks of position 1 of the
concrete difficulty-0 chain from its boolean verdict. -/
theorem claimC4_witness :
    (wChainD0.chain.getD 1 dummyBlock).previous_hash =
      (wChainD0.chain.getD 0 dummyBlock).hash ∧
    (wChainD0.chain.getD 1 dummyBlock).hash =
      (wChainD0.chain.getD 1 dummyBlock).calculate_hash ∧
    startswith (wChainD0.chain.getD 1 dummyBlock).hash
      (zeroTarget wChainD0.difficulty) = true :=
  (claimC4_validation_characterisation wChainD0).1.mp (by decide)
    1 (by omega) (by decide)

/-- C6: `tamper_with_block` errors exactly when the index is 0 or not a
valid position of the block list (negative or at least the length); on an
error the chain state is returned untouched, so a valid chain stays valid
after a failed tamper. -/
theorem claimC6_tamper_out_of_range (bc : Blockchain) (i : Int) (s : String) :
    ((∃ e, (bc.tamper_with_block i s).1 = Except.error e) ↔
      (i = 0 ∨ ¬(0 ≤ i ∧ i < (bc.chain.length : Int)))) ∧
    (∀ e, (bc.tamper_with_block i s).1 = Except.error e →
      (bc.tamper_with_block i s).2 = bc ∧
      (bc.is_chain_valid = true → (bc.tamper_with_block i s).2.is_chain_valid = true)) := by
  rw [Blockchain.tamper_with_block]
  by_cases hcond : i ≤ 0 ∨ (bc.chain.length : Int) ≤ i
  · rw [if_pos hcond]
    refine ⟨⟨fun _ => by omega, fun _ => ⟨_, rfl⟩⟩, ?_⟩
    intro e _
    exact ⟨rfl, fun hv => hv⟩
  · rw [if_neg hcond]
    refine ⟨⟨?_, ?_⟩, ?_⟩
    · rintro ⟨e, he⟩
      cases he
    · intro hr
      omega
    · intro e he
      cases he

/-- Witness for C6: tampering index 1 of a singleton chain fails and leaves
the chain unchanged. -/
theorem claimC6_witness :
    (Blockchain.tamper_with_block ⟨0, [dummyBlock]⟩ 1 "X").2 = ⟨0, [dummyBlock]⟩ :=
  ((claimC6_tamper_out_of_range ⟨0, [dummyBlock]⟩ 1 "X").2
    "Impossible de modifier ce bloc (index hors limites ou genesis)."
    (by rfl)).1

/-- C9: an in-range tamper (index at least 1 and below the length) succeeds
and changes exactly block `i`: its payload becomes the new data and its
hash the digest recomputed from the updated fields without re-mining, while
its index, timestamp, previous hash and nonce, every other block, the
difficulty and the length are all unchanged. -/
theorem claimC9_tamper_frame (bc : Blockchain) (i : Int) (s : String)
    (h1 : 1 ≤ i) (h2 : i < (bc.chain.length : Int)) :
    (bc.tamper_with_block i s).1 = Except.ok () ∧
    (bc.tamper_with_block i s).2.difficulty = bc.difficulty ∧
    (bc.tamper_with_block i s).2.chain.length = bc.chain.length ∧
    (∀ j : Nat, j ≠ i.toNat →
      (bc.tamper_with_block i s).2.chain[j]? = bc.chain[j]?) ∧
    (bc.tamper_with_block i s).2.chain[i.toNat]? =
      some (tamperedBlock (bc.chain.getD i.toNat dummyBlock) s) ∧
    (tamperedBlock (bc.chain.getD i.toNat dummyBlock) s).data = s ∧
    (tamperedBlock (bc.chain.getD i.toNat dummyBlock) s).index =
      (bc.chain.getD i.toNat dummyBlock).index ∧
    (tamperedBlock (bc.chain.getD i.toNat dummyBlock) s).timestamp =
      (bc.chain.getD i.toNat dummyBlock).timestamp ∧
    (tamperedBlock (bc.chain.getD i.toNat dummyBlock) s).previous_hash =
      (bc.chain.getD i.toNat dummyBlock).previous_hash ∧
    (tamperedBlock (bc.chain.getD i.toNat dummyBlock) s).nonce =
      (bc.chain.getD i.toNat dummyBlock).nonce ∧
    (tamperedBlock (bc.chain.getD i.toNat dummyBlock) s).hash =
      Block.calculate_hash { bc.chain.getD i.toNat dummyBlock with data := s } := by
  rw [tamper_in_range bc i s h1 h2]
  refine ⟨rfl, rfl, by simp, ?_, ?_, rfl, rfl, rfl, rfl, rfl, rfl⟩
  · intro j hj
    exact List.getElem?_set_ne (fun hee => hj hee.symm)
  · exact List.getElem?_set_self (by omega)

set_option maxRecDepth 10000 in
/-- Witness for C9: tampering block 1 of the concrete difficulty-0 chain. -/
theorem claimC9_witness :
    (wChainD0.tamper_with_block 1 "X").1 = Except.ok () ∧
    (wChainD0.tamper_with_block 1 "X").2.difficulty = wChainD0.difficulty ∧
    (wChainD0.tamper_with_block 1 "X").2.chain.length = wChainD0.chain.length ∧
    (∀ j : Nat, j ≠ (1 : Int).toNat →
      (wChainD0.tamper_with_block 1 "X").2.chain[j]? = wChainD0.chain[j]?) ∧
    (wChainD0.tamper_with_block 1 "X").2.chain[(1 : Int).toNat]? =
      some (tamperedBlock (wChainD0.chain.getD (1 : Int).toNat dummyBlock) "X") ∧
    (tamperedBlock (wChainD0.chain.getD (1 : Int).toNat dummyBlock) "X").data = "X" ∧
    (tamperedBlock (wChainD0.chain.getD (1 : Int).toNat dummyBlock) "X").index =
      (wChainD0.chain.getD (1 : Int).toNat dummyBlock).index ∧
    (tamperedBlock (wChainD0.chain.getD (1 : Int).toNat dummyBlock) "X").timestamp =
      (wChainD0.chain.getD (1 : Int).toNat dummyBlock).timestamp ∧
    (tamperedBlock (wChainD0.chain.getD (1 : Int).toNat dummyBlock) "X").previous_hash =
      (wChainD0.chain.getD (1 : Int).toNat dummyBlock).previous_hash ∧
    (tamperedBlock (wChainD0.chain.getD (1 : Int).toNat dummyBlock) "X").nonce =
      (wChainD0.chain.getD (1 : Int).toNat dummyBlock).nonce ∧
    (tamperedBlock (wChainD0.chain.getD (1 : Int).toNat dummyBlock) "X").hash =
      Block.calculate_hash { wChainD0.chain.getD (1 : Int).toNat dummyBlock with data := "X" } :=
  claimC9_tamper_frame wChainD0 1 "X" (by omega) (by decide)

set_option maxRecDepth 10000 in
/-- Counterexample to C5 as stated: a concrete valid difficulty-1 chain of
three blocks where `tamper(1, "X")` (with `"X"` differing from block 1's
current data) makes `is_valid` return `false`, but the detected failure is
the difficulty check at block 1, not the previous-hash mismatch at block 2. -/
theorem claimC5_counterexample :
    cexChainD1.is_chain_valid = true ∧
    3 ≤ cexChainD1.chain.length ∧
    (cexChainD1.tamper_with_block 1 "X").1 = Except.ok () ∧
    (cexChainD1.tamper_with_block 1 "X").2.is_chain_valid = false ∧
    (cexChainD1.tamper_with_block 1 "X").2.chainCheck =
      some (1, CheckFailure.difficultyFail) ∧
    (cexChainD1.tamper_with_block 1 "X").2.chainCheck ≠
      some (2, CheckFailure.prevHashMismatch) := by
  refine ⟨by decide, by decide, by rfl, by decide, by decide, by decide⟩

/-- C5 (amended): tampering block 1 of a valid chain of at least 3 blocks
with a payload whose recomputed digest differs from block 1's stored hash
makes `is_valid` return `false`; the detected failure is the difficulty
check at block 1 when the recomputed digest misses the difficulty target,
and otherwise (in particular at difficulty 0) the previous-hash mismatch at
block 2. -/
theorem claimC5_tamper_detection (bc : Blockchain) (x : String)
    (hv : bc.is_chain_valid = true) (hlen : 3 ≤ bc.chain.length)
    (hne : Block.calculate_hash { bc.chain.getD 1 dummyBlock with data := x } ≠
      (bc.chain.getD 1 dummyBlock).hash) :
    (bc.tamper_with_block 1 x).1 = Except.ok () ∧
    (bc.tamper_with_block 1 x).2.is_chain_valid = false ∧
    (if startswith (Block.calculate_hash { bc.chain.getD 1 dummyBlock with data := x })
         (zeroTarget bc.difficulty) = true
     then (bc.tamper_with_block 1 x).2.chainCheck =
            some (2, CheckFailure.prevHashMismatch)
     else (bc.tamper_with_block 1 x).2.chainCheck =
            some (1, CheckFailure.difficultyFail)) := by
  obtain ⟨d, chain⟩ := bc
  rcases chain with _ | ⟨b0, _ | ⟨b1, _ | ⟨b2, rest⟩⟩⟩
  · simp at hlen
  · simp at hlen
  · simp at hlen
  · simp only [List.getD_cons_succ, List.getD_cons_zero] at hne ⊢
    rw [tamper_one d b0 b1 (b2 :: rest) x]
    have hd := tamper_detect d b0 b1 b2 rest x hv (by exact hne)
    exact ⟨rfl, hd.1, hd.2⟩

set_option maxRecDepth 10000 in
/-- Witness for the amended C5 at the concrete difficulty-0 chain: there
the refreshed digest always matches the empty target, so the reported
failure is indeed the previous-hash mismatch at block 2. -/
theorem claimC5_witness :
    (wChainD0.tamper_with_block 1 "X").1 = Except.ok () ∧
    (wChainD0.tamper_with_block 1 "X").2.is_chain_valid = false ∧
    (if startswith (Block.calculate_hash { wChainD0.chain.getD 1 dummyBlock with data := "X" })
         (zeroTarget wChainD0.difficulty) = true
     then (wChainD0.tamper_with_block 1 "X").2.chainCheck =
            some (2, CheckFailure.prevHashMismatch)
     else (wChainD0.tamper_with_block 1 "X").2.chainCheck =
            some (1, CheckFailure.difficultyFail)) :=
  claimC5_tamper_detection wChainD0 "X" (by decide) (by decide) (by decide)

set_option maxRecDepth 10000 in
/-- Counterexample to C7 as stated: the constructor performs no validation,
so a negative difficulty still produces a chain. -/
theorem claimC7_counterexample : (Blockchain.new (-1) "0" 1).isSome = true := by
  decide

/-- C7 (amended): the constructor does not validate `difficulty`; with a
negative difficulty it succeeds (mining in one attempt, the Python
`"0" * difficulty` being empty) and produces a one-block chain carrying the
negative difficulty unchanged. -/
theorem claimC7_no_validation (d : Int) (hd : d < 0) (ts : String)
    (fuel : Nat) (hf : 1 ≤ fuel) :
    ∃ bc, Blockchain.new d ts fuel = some bc ∧
      bc.difficulty = d ∧ bc.chain.length = 1 := by
  refine ⟨⟨d, [{ Block.new 0 ts "Genesis Block" "0" with
    hash := (Block.new 0 ts "Genesis Block" "0").calculate_hash }]⟩, ?_, rfl, rfl⟩
  rw [Blockchain.new, create_genesis_block,
      proof_of_work_empty_target d (by omega) fuel hf]
  rfl

/-- Witness for the amended C7 at difficulty `-1`. -/
theorem claimC7_witness :
    ∃ bc, Blockchain.new (-1) "0" 1 = some bc ∧
      bc.difficulty = -1 ∧ bc.chain.length = 1 :=
  claimC7_no_validation (-1) (by omega) "0" 1 (by omega)

end MiniBlockchain
